import Mathlib

/-!
Verification of the uho-backfill sidecar (src/sidecar/src/main.rs).

The development shallowly embeds the per-record dispatch callback
`ProgramFilterPlugin::on_transaction`, the constructor
`ProgramFilterPlugin::new`, the base58 codec used by them (the bs58 crate
with the Bitcoin alphabet), and the NDJSON serialization of `OutputRecord`
(serde_json field order and string escaping).  Machine integers (`u64`) are
modelled as `Nat` with explicit reduction modulo `2 ^ 64` where the source
wraps.  Concurrency is modelled by an explicit interleaving relation over
the atomic events each callback performs.
-/

namespace Uho

/-- Modulus of the `u64` / `AtomicU64` values used by the counters. -/
def u64Size : Nat := 2 ^ 64

/-! ### Base58 codec (bs58 crate, Bitcoin alphabet) -/

/-- Alphabet of the bs58 crate's default (Bitcoin) base58 encoding. -/
def b58Alphabet : List Char :=
  "123456789ABCDEFGHJKLMNPQRSTUVWXYZabcdefghijkmnopqrstuvwxyz".data

/-- Big-endian digits of `n` in base `b`, computed by the repeated-division
loop the bs58 crate and Rust's integer Display use; `fuel` bounds the
number of divisions and is always passed as `n` itself, which suffices
(see `repDigits_stable`). -/
def repDigits (b : Nat) : Nat → Nat → List Nat
  | 0, _ => []
  | fuel + 1, n => if n = 0 then [] else repDigits b fuel (n / b) ++ [n % b]

/-- Passing any fuel of at least `n` computes the same digit string, so
`repDigits b n n` is the fuel-independent value of the division loop. -/
theorem repDigits_stable (b : Nat) (hb : 2 ≤ b) :
    ∀ n f₁ f₂, n ≤ f₁ → n ≤ f₂ → repDigits b f₁ n = repDigits b f₂ n := by
  intro n
  induction n using Nat.strong_induction_on with
  | _ n ih =>
    intro f₁ f₂ h₁ h₂
    match f₁, f₂ with
    | 0, 0 => rfl
    | 0, g + 1 =>
      have : n = 0 := Nat.le_zero.mp h₁
      simp [repDigits, this]
    | g + 1, 0 =>
      have : n = 0 := Nat.le_zero.mp h₂
      simp [repDigits, this]
    | g₁ + 1, g₂ + 1 =>
      by_cases hn : n = 0
      · simp [repDigits, hn]
      · have hdiv : n / b < n := Nat.div_lt_self (Nat.pos_of_ne_zero hn) (by omega)
        simp only [repDigits, hn, if_false]
        rw [ih (n / b) hdiv g₁ g₂ (by omega) (by omega)]

/-- Big-endian base58 digit string of a natural number (empty for zero). -/
def natToB58 (n : Nat) : List Char :=
  (repDigits 58 n n).map fun d => b58Alphabet.getD d '1'

/-- Value of a big-endian byte string. -/
def bytesToNat (bs : List Nat) : Nat :=
  bs.foldl (fun a b => a * 256 + b) 0

/-- Encoding of a byte string by `bs58::encode`: one `1` per leading zero
byte, then the base58 digits of the value of the bytes. -/
def bs58encode (bs : List Nat) : String :=
  ⟨List.replicate (bs.takeWhile (· == 0)).length '1' ++ natToB58 (bytesToNat bs)⟩

/-- Index of a character in the base58 alphabet, if it belongs to it. -/
def b58CharVal (c : Char) : Option Nat :=
  if h : b58Alphabet.findIdx (· == c) < b58Alphabet.length
  then some (b58Alphabet.findIdx (· == c)) else none

/-- Value of a base58 digit string, if every character is in the alphabet. -/
def b58Value : List Char → Option Nat
  | [] => some 0
  | c :: cs => do
      let v ← b58CharVal c
      let rest ← b58Value cs
      pure (v * 58 ^ cs.length + rest)

/-- Minimal big-endian byte string of a natural number (empty for zero). -/
def natToBytes (n : Nat) : List Nat :=
  repDigits 256 n n

/-- Decoding of `bs58::decode(s).into_vec()`: `none` models `Err`.  Leading
`1` characters decode to leading zero bytes; the rest is the big-endian
byte expansion of the digit-string value. -/
def bs58decode (s : String) : Option (List Nat) := do
  let v ← b58Value s.data
  pure (List.replicate (s.data.takeWhile (· == '1')).length 0 ++ natToBytes v)

/-! ### serde_json serialization of `OutputRecord` -/

/-- Decimal digit character, `0`–`9`. -/
def decDigit (n : Nat) : Char := Char.ofNat (48 + n)

/-- Big-endian decimal digits of a natural number (Rust `u64` Display,
which renders zero as `0`). -/
def natDecDigits (n : Nat) : List Char :=
  if n = 0 then ['0'] else (repDigits 10 n n).map decDigit

/-- Decimal rendering of a `u64` value. -/
def natDec (n : Nat) : String := ⟨natDecDigits n⟩

/-- Decimal rendering of an `i64` value (Rust `i64` Display). -/
def intDec (i : Int) : String :=
  if i < 0 then "-" ++ natDec i.natAbs else natDec i.natAbs

/-- Lowercase hexadecimal digit, as in serde_json's escape table. -/
def hexDigit (n : Nat) : Char := "0123456789abcdef".data.getD n '0'

/-- Escape of one character inside a JSON string, exactly as serde_json
renders it: `"` and `\` get a backslash, the five short control escapes are
used, any other control character becomes `\u00XX`, and everything else is
passed through unchanged. -/
def escapeChar (c : Char) : List Char :=
  if c = '"' then ['\\', '"']
  else if c = '\\' then ['\\', '\\']
  else if c.toNat = 8 then ['\\', 'b']
  else if c.toNat = 9 then ['\\', 't']
  else if c.toNat = 10 then ['\\', 'n']
  else if c.toNat = 12 then ['\\', 'f']
  else if c.toNat = 13 then ['\\', 'r']
  else if c.toNat < 32 then
    ['\\', 'u', '0', '0', hexDigit (c.toNat / 16), hexDigit (c.toNat % 16)]
  else [c]

/-- JSON string literal for `s`, serde_json style. -/
def jsonString (s : String) : String :=
  ⟨'"' :: s.data.flatMap escapeChar ++ ['"']⟩

/-- Comma-separated concatenation. -/
def commaSep : List String → String
  | [] => ""
  | [x] => x
  | x :: y :: xs => x ++ "," ++ commaSep (y :: xs)

/-- JSON array of already-rendered element strings. -/
def jsonArr (elems : List String) : String :=
  "[" ++ commaSep elems ++ "]"

/-- JSON object of already-rendered key/value pairs, in the given order,
with no whitespace — the compact form `serde_json::to_string` produces. -/
def jsonObj (fields : List (String × String)) : String :=
  "\x7b" ++ commaSep (fields.map fun kv => "\"" ++ kv.1 ++ "\":" ++ kv.2) ++ "\x7d"

/-! ### Data model -/

/-- Fields of `TransactionData` that `on_transaction` reads.  `signature`
is the base58 string form of the signature (the source only uses
`signature.to_string()`); `static_account_keys` are the 32-byte forms of
`message.static_account_keys()` (`key.to_bytes()`); `log_messages` is
`transaction_status_meta.log_messages : Option<Vec<String>>`. -/
structure TransactionData where
  signature : String
  slot : Nat
  block_time : Option Int
  is_vote : Bool
  static_account_keys : List (List Nat)
  log_messages : Option (List String)
deriving DecidableEq

/-- Rust struct `OutputRecord`: the NDJSON record written to stdout. -/
structure OutputRecord where
  signature : String
  slot : Nat
  block_time : Option Int
  logs : List String
deriving DecidableEq

/-- Values of the three `AtomicU64` fields of `ProgramFilterPlugin`. -/
structure PluginState where
  tx_count : Nat
  match_count : Nat
  last_slot : Nat
deriving DecidableEq

/-- Initial counters (`AtomicU64::new(0)` three times). -/
def initState : PluginState := ⟨0, 0, 0⟩

/-- Construction of `ProgramFilterPlugin::new`: base58-decode the program
id (`expect` panics on `Err`, modelled as `none`), then
`arr.copy_from_slice(&bytes[..32])` — the slice `bytes[..32]` panics when
fewer than 32 bytes decoded (`none`), and otherwise the first 32 bytes
become `program_id_bytes`. -/
def ProgramFilterPlugin.new (program_id : String) : Option (List Nat) :=
  match bs58decode program_id with
  | none => none
  | some bytes => if 32 ≤ bytes.length then some (bytes.take 32) else none

/-- serde_json rendering of an `OutputRecord`: the derived `Serialize`
emits the fields in declaration order, with `block_time` renamed to
`blockTime` and `None` rendered as `null`. -/
def renderOutputRecord (r : OutputRecord) : String :=
  jsonObj [("signature", jsonString r.signature),
           ("slot", natDec r.slot),
           ("blockTime", match r.block_time with
                         | none => "null"
                         | some t => intDec t),
           ("logs", jsonArr (r.logs.map jsonString))]

/-- Text of the progress line `eprintln!` writes (without the trailing
newline of the stderr stream). -/
def progressLine (processed matched currentSlot : Nat) : String :=
  "PROGRESS:\x7b\"processed\":" ++ natDec processed ++
    ",\"matched\":" ++ natDec matched ++
    ",\"currentSlot\":" ++ natDec currentSlot ++ "\x7d"

/-! ### The dispatch callback `on_transaction` -/

/-- Result of one `on_transaction` call: `ok` carries the new counter
values, the chunks appended to stdout and the lines written to stderr;
`panicked` models a panic (the `unwrap` of `serde_json::to_string`), after
which nothing reaches stdout. -/
inductive CallOutcome where
  | ok (st : PluginState) (out : List String) (err : List String)
  | panicked (st : PluginState) (err : List String)
deriving DecidableEq

/-- Counter values after the call. -/
def CallOutcome.counters : CallOutcome → PluginState
  | .ok st _ _ => st
  | .panicked st _ => st

/-- Chunks the call appended to stdout. -/
def CallOutcome.stdout : CallOutcome → List String
  | .ok _ out _ => out
  | .panicked _ _ => []

/-- Lines the call wrote to stderr. -/
def CallOutcome.stderr : CallOutcome → List String
  | .ok _ _ err => err
  | .panicked _ err => err

/-- True when the call returned `Ok(())` rather than panicking. -/
def CallOutcome.isOk : CallOutcome → Bool
  | .ok _ _ _ => true
  | .panicked _ _ => false

/-- Body of `ProgramFilterPlugin::on_transaction`, with the single external
call `serde_json::to_string(&record)` abstracted as the parameter `ser`
(`Except` mirrors its `Result`): `fetch_add` returns the previous
`tx_count` into `count`; the slot is stored; the progress line is printed
when `count > 0 && count % 100_000 == 0`; vote transactions, transactions
whose static account keys never equal `program_id_bytes`, transactions
without logs, and transactions none of whose logs contain the base58 text
of the program id all return early with `Ok(())`; otherwise `match_count`
is incremented, the record is serialized (`unwrap` panics on `Err`) and
one line goes to stdout. -/
def on_transaction_with (ser : OutputRecord → Except Unit String)
    (program_id_bytes : List Nat) (st : PluginState) (tx : TransactionData) :
    CallOutcome :=
  let count := st.tx_count
  let st1 : PluginState :=
    { st with tx_count := (st.tx_count + 1) % u64Size, last_slot := tx.slot }
  let errLines : List String :=
    if 0 < count ∧ count % 100000 = 0
    then [progressLine count st1.match_count st1.last_slot]
    else []
  if tx.is_vote then .ok st1 [] errLines
  else
    let program_involved :=
      tx.static_account_keys.any fun key => key == program_id_bytes
    if !program_involved then .ok st1 [] errLines
    else
      let logs := tx.log_messages.getD []
      if logs.isEmpty then .ok st1 [] errLines
      else
        let program_b58 := bs58encode program_id_bytes
        let has_program_log := logs.any fun log => decide (program_b58.data <:+: log.data)
        if !has_program_log then .ok st1 [] errLines
        else
          let st2 : PluginState :=
            { st1 with match_count := (st1.match_count + 1) % u64Size }
          let record : OutputRecord :=
            ⟨tx.signature, tx.slot, tx.block_time, logs⟩
          match ser record with
          | .error _ => .panicked st2 errLines
          | .ok json => .ok st2 [json ++ "\n"] errLines

/-- Serialization actually used by the source: `serde_json::to_string` on
an `OutputRecord`.  On this record type (a string, an integer, an optional
integer and a vector of strings, all derived) serde_json never returns
`Err`, so the model is total. -/
def serdeToString (r : OutputRecord) : Except Unit String :=
  .ok (renderOutputRecord r)

/-- The dispatch callback as shipped: `on_transaction_with` instantiated
at the concrete serializer. -/
def on_transaction (program_id_bytes : List Nat) (st : PluginState)
    (tx : TransactionData) : CallOutcome :=
  on_transaction_with serdeToString program_id_bytes st tx

/-- Conjunction of the three filter stages, written after the spec's
wording of the Matcher (section 4.1), over the same record fields the
source reads: not a vote record, the 32-byte target among the static
account keys by exact byte equality, and a non-empty log list at least one
line of which contains the base58 text of the target as a substring. -/
def passesAllStages (program_id_bytes : List Nat) (tx : TransactionData) : Prop :=
  tx.is_vote = false ∧
  program_id_bytes ∈ tx.static_account_keys ∧
  tx.log_messages.getD [] ≠ [] ∧
  ∃ log ∈ tx.log_messages.getD [],
    (bs58encode program_id_bytes).data <:+: log.data

instance (pid : List Nat) (tx : TransactionData) :
    Decidable (passesAllStages pid tx) := by
  unfold passesAllStages
  exact inferInstance

/-- Conjunction of the boolean tests `on_transaction` performs, in source
order: `!transaction.is_vote`, `account_keys.iter().any(..)`, log list
non-empty, and `logs.iter().any(|log| log.contains(&program_b58))`. -/
def txMatches (program_id_bytes : List Nat) (tx : TransactionData) : Bool :=
  !tx.is_vote &&
  (tx.static_account_keys.any fun key => key == program_id_bytes) &&
  !(tx.log_messages.getD []).isEmpty &&
  ((tx.log_messages.getD []).any fun log =>
    decide ((bs58encode program_id_bytes).data <:+: log.data))

/-- Lines the call writes to stderr, as a function of the counters at
entry: one progress line exactly when the previous `tx_count` is positive
and a multiple of 100000 (`fetch_add` returns the pre-increment value). -/
def reportLines (st : PluginState) (tx : TransactionData) : List String :=
  if 0 < st.tx_count ∧ st.tx_count % 100000 = 0
  then [progressLine st.tx_count st.match_count tx.slot]
  else []

/-- The `OutputRecord` built for a matched transaction: a direct field
projection, with the logs defaulted to empty when absent. -/
def buildRecord (tx : TransactionData) : OutputRecord :=
  ⟨tx.signature, tx.slot, tx.block_time, tx.log_messages.getD []⟩

/-- Characterization of one `on_transaction_with` call: the counters
advance, the stderr lines are `reportLines`, and stdout receives one
serialized line precisely on a match — unless the serializer fails, in
which case the call panics after the `match_count` increment. -/
theorem on_transaction_with_spec (ser : OutputRecord → Except Unit String)
    (pid : List Nat) (st : PluginState) (tx : TransactionData) :
    on_transaction_with ser pid st tx =
      if txMatches pid tx then
        match ser (buildRecord tx) with
        | .error _ => CallOutcome.panicked
            ⟨(st.tx_count + 1) % u64Size, (st.match_count + 1) % u64Size, tx.slot⟩
            (reportLines st tx)
        | .ok json => CallOutcome.ok
            ⟨(st.tx_count + 1) % u64Size, (st.match_count + 1) % u64Size, tx.slot⟩
            [json ++ "\n"] (reportLines st tx)
      else
        CallOutcome.ok ⟨(st.tx_count + 1) % u64Size, st.match_count, tx.slot⟩
          [] (reportLines st tx) := by
  unfold on_transaction_with txMatches reportLines buildRecord
  cases hv : tx.is_vote
  · cases hk : tx.static_account_keys.any fun key => key == pid
    · simp [hk]
    · cases hl : (tx.log_messages.getD []).isEmpty
      · cases hp : (tx.log_messages.getD []).any fun log =>
            decide ((bs58encode pid).data <:+: log.data)
        · simp [hk, hl, hp]
        · simp [hk, hl, hp]
      · simp [hk, hl]
  · simp

/-- The boolean filter chain of the source decides exactly the three-stage
conjunction stated by the spec. -/
theorem txMatches_iff_passesAllStages (pid : List Nat) (tx : TransactionData) :
    txMatches pid tx = true ↔ passesAllStages pid tx := by
  unfold txMatches passesAllStages
  simp [List.any_eq_true, List.isEmpty_iff, beq_iff_eq]
  tauto

/-- The shipped callback never panics (its serializer is total) and its
outcome is determined by the matcher, the entry counters and the record. -/
theorem on_transaction_spec (pid : List Nat) (st : PluginState)
    (tx : TransactionData) :
    on_transaction pid st tx =
      if txMatches pid tx then
        CallOutcome.ok
          ⟨(st.tx_count + 1) % u64Size, (st.match_count + 1) % u64Size, tx.slot⟩
          [renderOutputRecord (buildRecord tx) ++ "\n"] (reportLines st tx)
      else
        CallOutcome.ok ⟨(st.tx_count + 1) % u64Size, st.match_count, tx.slot⟩
          [] (reportLines st tx) := by
  rw [on_transaction, on_transaction_with_spec]
  cases txMatches pid tx <;> simp [serdeToString]

/-- Stdout of one call: one rendered line on a match, nothing otherwise. -/
theorem on_transaction_stdout (pid : List Nat) (st : PluginState)
    (tx : TransactionData) :
    (on_transaction pid st tx).stdout =
      if txMatches pid tx
      then [renderOutputRecord (buildRecord tx) ++ "\n"] else [] := by
  rw [on_transaction_spec]
  cases txMatches pid tx <;> simp [CallOutcome.stdout]

/-- Stderr of one call is `reportLines` of the counters at entry. -/
theorem on_transaction_stderr (pid : List Nat) (st : PluginState)
    (tx : TransactionData) :
    (on_transaction pid st tx).stderr = reportLines st tx := by
  rw [on_transaction_spec]
  cases txMatches pid tx <;> simp [CallOutcome.stderr]

/-- Counters after one call. -/
theorem on_transaction_counters (pid : List Nat) (st : PluginState)
    (tx : TransactionData) :
    (on_transaction pid st tx).counters =
      ⟨(st.tx_count + 1) % u64Size,
       if txMatches pid tx then (st.match_count + 1) % u64Size else st.match_count,
       tx.slot⟩ := by
  rw [on_transaction_spec]
  cases txMatches pid tx <;> simp [CallOutcome.counters]

/-! ### Sequential driver -/

/-- Sequential processing of a list of records by repeated calls of the
dispatch callback, accumulating the counters and both streams; a panic
stops the run with nothing more written. -/
def runAll (pid : List Nat) (st : PluginState) :
    List TransactionData → PluginState × List String × List String
  | [] => (st, [], [])
  | tx :: rest =>
    match on_transaction pid st tx with
    | .panicked st1 err => (st1, [], err)
    | .ok st1 out err =>
      let r := runAll pid st1 rest
      (r.1, out ++ r.2.1, err ++ r.2.2)

/-- Stdout of a sequential run: exactly one rendered line per record that
passes the filter, in input order, and nothing else. -/
theorem runAll_stdout (pid : List Nat) (st : PluginState)
    (txs : List TransactionData) :
    (runAll pid st txs).2.1 =
      (txs.filter (txMatches pid)).map
        fun tx => renderOutputRecord (buildRecord tx) ++ "\n" := by
  induction txs generalizing st with
  | nil => rfl
  | cons tx rest ih =>
    rw [runAll, on_transaction_spec]
    cases h : txMatches pid tx <;>
      simp [h, List.filter_cons, ih]

/-! ### Newline freedom of rendered lines -/

/-- Every hexadecimal digit character differs from a raw newline. -/
theorem hexDigit_ne_newline (n : Nat) : hexDigit n ≠ '\n' := by
  unfold hexDigit
  rcases hget : ("0123456789abcdef".data)[n]? with _ | y
  · simp [List.getD, hget]
  · have hy : y ∈ "0123456789abcdef".data :=
      List.mem_iff_getElem?.mpr ⟨n, hget⟩
    have hall : ∀ z ∈ "0123456789abcdef".data, z ≠ '\n' := by decide
    simp [List.getD, hget]
    exact hall y hy

/-- Characters produced by `escapeChar` are never a raw newline. -/
theorem escapeChar_ne_newline (c x : Char) (hx : x ∈ escapeChar c) :
    x ≠ '\n' := by
  unfold escapeChar at hx
  split_ifs at hx with h1 h2 h3 h4 h5 h6 h7 h8
  · simp at hx; rcases hx with rfl | rfl <;> decide
  · simp at hx; rcases hx with rfl | rfl <;> decide
  · simp at hx; rcases hx with rfl | rfl <;> decide
  · simp at hx; rcases hx with rfl | rfl <;> decide
  · simp at hx; rcases hx with rfl | rfl <;> decide
  · simp at hx; rcases hx with rfl | rfl <;> decide
  · simp at hx; rcases hx with rfl | rfl <;> decide
  · simp at hx
    rcases hx with rfl | rfl | rfl | rfl | rfl | rfl <;>
      first
        | decide
        | exact hexDigit_ne_newline _
  · simp at hx
    subst hx
    intro hc
    subst hc
    exact h8 (by decide)

/-- Strings with no raw newline character. -/
def noNewline (s : String) : Prop := '\n' ∉ s.data

instance (s : String) : Decidable (noNewline s) :=
  inferInstanceAs (Decidable ('\n' ∉ s.data))

theorem noNewline_append {a b : String} (ha : noNewline a) (hb : noNewline b) :
    noNewline (a ++ b) := by
  unfold noNewline at *
  rw [String.data_append]
  simp [List.mem_append]
  exact ⟨ha, hb⟩

theorem jsonString_noNewline (s : String) : noNewline (jsonString s) := by
  unfold noNewline jsonString
  intro h
  rcases List.mem_cons.mp h with h | h
  · exact (by decide : ('\n' : Char) ≠ '"') h
  · rcases List.mem_append.mp h with h | h
    · obtain ⟨c, _, hc⟩ := List.mem_flatMap.mp h
      exact escapeChar_ne_newline c _ hc rfl
    · exact (by decide : ('\n' : Char) ≠ '"') (List.mem_singleton.mp h)

theorem commaSep_noNewline (l : List String)
    (h : ∀ s ∈ l, noNewline s) : noNewline (commaSep l) := by
  induction l with
  | nil => intro hc; simp [commaSep] at hc
  | cons x xs ih =>
    cases xs with
    | nil =>
      simpa [commaSep] using h x (by simp)
    | cons y ys =>
      rw [commaSep]
      exact noNewline_append
        (noNewline_append (h x (by simp)) (by decide))
        (ih fun s hs => h s (List.mem_cons_of_mem _ hs))

/-- Digits produced by the division loop are below the base. -/
theorem repDigits_mem_lt {b : Nat} (hb : 0 < b) :
    ∀ f n d, d ∈ repDigits b f n → d < b := by
  intro f
  induction f with
  | zero => intro n d hd; simp [repDigits] at hd
  | succ f ihf =>
    intro n d hd
    rw [repDigits] at hd
    split_ifs at hd with hz
    · simp at hd
    · rcases List.mem_append.mp hd with h | h
      · exact ihf _ _ h
      · simp at h
        subst h
        exact Nat.mod_lt _ hb

theorem natDec_noNewline (n : Nat) : noNewline (natDec n) := by
  unfold noNewline natDec natDecDigits
  split_ifs
  · decide
  · intro hc
    simp only [List.mem_map] at hc
    obtain ⟨d, hd, hcd⟩ := hc
    have hd10 : d < 10 := repDigits_mem_lt (by omega) n n d hd
    have hdec : ∀ e, e < 10 → decDigit e ≠ '\n' := by decide
    exact hdec d hd10 hcd

theorem intDec_noNewline (i : Int) : noNewline (intDec i) := by
  unfold intDec
  split_ifs
  · exact noNewline_append (by decide) (natDec_noNewline _)
  · exact natDec_noNewline _

theorem jsonArr_noNewline (elems : List String)
    (h : ∀ s ∈ elems, noNewline s) : noNewline (jsonArr elems) := by
  unfold jsonArr
  exact noNewline_append (noNewline_append (by decide) (commaSep_noNewline _ h))
    (by decide)

theorem jsonObj_noNewline (fields : List (String × String))
    (h : ∀ kv ∈ fields, noNewline kv.1 ∧ noNewline kv.2) :
    noNewline (jsonObj fields) := by
  unfold jsonObj
  refine noNewline_append (noNewline_append (by decide)
    (commaSep_noNewline _ ?_)) (by decide)
  intro s hs
  rcases List.mem_map.mp hs with ⟨kv, hkv, rfl⟩
  exact noNewline_append
    (noNewline_append (noNewline_append (by decide) (h kv hkv).1) (by decide))
    (h kv hkv).2

/-- The rendered NDJSON record contains no raw newline character. -/
theorem renderOutputRecord_noNewline (r : OutputRecord) :
    noNewline (renderOutputRecord r) := by
  unfold renderOutputRecord
  apply jsonObj_noNewline
  intro kv hkv
  simp only [List.mem_cons, List.not_mem_nil, or_false] at hkv
  rcases hkv with rfl | rfl | rfl | rfl
  · exact ⟨(by decide : noNewline "signature"), jsonString_noNewline _⟩
  · exact ⟨(by decide : noNewline "slot"), natDec_noNewline _⟩
  · refine ⟨(by decide : noNewline "blockTime"), ?_⟩
    cases r.block_time with
    | none => decide
    | some t => exact intDec_noNewline t
  · refine ⟨(by decide : noNewline "logs"), ?_⟩
    apply jsonArr_noNewline
    intro s hs
    rcases List.mem_map.mp hs with ⟨log, _, rfl⟩
    exact jsonString_noNewline log

/-! ### Concurrency model

Each worker thread executes `on_transaction` bodies whose shared-state
accesses are the atomic operations of the three `AtomicU64` fields.  A
concurrent execution is an interleaving of the per-call event sequences;
each atomic read-modify-write is a single indivisible event, which is the
guarantee `AtomicU64::fetch_add` / `store` provide. -/

/-- Atomic (or, for `reportCheck` / `classified` / `emitLine`,
state-irrelevant) steps of one `on_transaction` call, in source order. -/
inductive Event where
  | fetchAddTx
  | storeSlot (s : Nat)
  | reportCheck
  | classified (accepted : Bool)
  | fetchAddMatch
  | emitLine
deriving DecidableEq

/-- Effect of one event on the shared counters (`fetch_add` wraps). -/
def applyEvent (st : PluginState) : Event → PluginState
  | .fetchAddTx => { st with tx_count := (st.tx_count + 1) % u64Size }
  | .storeSlot s => { st with last_slot := s }
  | .fetchAddMatch => { st with match_count := (st.match_count + 1) % u64Size }
  | _ => st

/-- Counter state after a trace of events. -/
def runTrace (st : PluginState) (t : List Event) : PluginState :=
  t.foldl applyEvent st

/-- Events of the `record_seen` step (source lines 91–92): one atomic
`fetch_add` of `tx_count`, then one atomic store of the slot. -/
def recordSeenEvents (slot : Nat) : List Event :=
  [.fetchAddTx, .storeSlot slot]

/-- Event sequence of one whole `on_transaction` call, following the
source's control flow: counters first, then the progress check, then the
filter chain with its early returns, and on acceptance the `match_count`
increment and the line write. -/
def callTrace (pid : List Nat) (tx : TransactionData) : List Event :=
  [.fetchAddTx, .storeSlot tx.slot, .reportCheck] ++
  (if tx.is_vote then [.classified false]
   else if !(tx.static_account_keys.any fun key => key == pid) then
     [.classified false]
   else if (tx.log_messages.getD []).isEmpty then [.classified false]
   else if !((tx.log_messages.getD []).any fun log =>
       decide ((bs58encode pid).data <:+: log.data)) then [.classified false]
   else [.classified true, .fetchAddMatch, .emitLine])

/-- The branching of `callTrace` collapses to the matcher decision. -/
theorem callTrace_eq (pid : List Nat) (tx : TransactionData) :
    callTrace pid tx =
      [.fetchAddTx, .storeSlot tx.slot, .reportCheck] ++
      (if txMatches pid tx then [.classified true, .fetchAddMatch, .emitLine]
       else [.classified false]) := by
  unfold callTrace txMatches
  cases hv : tx.is_vote
  · cases hk : tx.static_account_keys.any fun key => key == pid
    · simp [hk]
    · cases hl : (tx.log_messages.getD []).isEmpty
      · cases hp : (tx.log_messages.getD []).any fun log =>
            decide ((bs58encode pid).data <:+: log.data)
        · simp [hk, hl, hp]
        · simp [hk, hl, hp]
      · simp [hk, hl]
  · simp

/-- Running the events of one call takes the counters exactly where the
callback takes them: the trace model agrees with `on_transaction`. -/
theorem runTrace_callTrace (pid : List Nat) (st : PluginState)
    (tx : TransactionData) :
    runTrace st (callTrace pid tx) = (on_transaction pid st tx).counters := by
  rw [callTrace_eq, on_transaction_counters]
  cases h : txMatches pid tx <;>
    simp [runTrace, applyEvent, CallOutcome.counters]

/-- Removal of the next event `x` from the head of one of the pending
per-thread suffixes. -/
inductive Pick (x : α) : List (List α) → List (List α) → Prop
  | here {l ls} : Pick x ((x :: l) :: ls) (l :: ls)
  | there {l ls ls'} : Pick x ls ls' → Pick x (l :: ls) (l :: ls')

/-- The trace `t` is an interleaving of the sequences `ls`, one event at a
time, each event taken from the front of any one sequence. -/
inductive IsInterleaving : List (List α) → List α → Prop
  | nil {ls : List (List α)} : (∀ l ∈ ls, l = []) → IsInterleaving ls []
  | cons {ls ls' : List (List α)} {x : α} {t : List α} :
      Pick x ls ls' → IsInterleaving ls' t → IsInterleaving ls (x :: t)

/-- A single sequence interleaves to itself. -/
theorem isInterleaving_single (l : List α) : IsInterleaving [l] l := by
  induction l with
  | nil => exact .nil (by simp)
  | cons x xs ih => exact .cons .here ih

theorem pick_countP {x : α} {ls ls' : List (List α)} (hp : Pick x ls ls')
    (p : α → Bool) :
    (ls.map (List.countP p)).sum =
      (if p x then 1 else 0) + (ls'.map (List.countP p)).sum := by
  induction hp with
  | here => simp [List.countP_cons]; omega
  | there _ ih => simp only [List.map_cons, List.sum_cons, ih]; omega

/-- Any interleaving preserves, for every predicate, the total number of
satisfying events of the per-thread sequences. -/
theorem isInterleaving_countP {ls : List (List α)} {t : List α}
    (hI : IsInterleaving ls t) (p : α → Bool) :
    t.countP p = (ls.map (List.countP p)).sum := by
  induction hI with
  | nil h =>
    simp only [List.countP_nil]
    induction ‹List (List α)› with
    | nil => simp
    | cons l ls ih =>
      have hl : l = [] := h l (by simp)
      simp [hl, ih fun l hl => h l (by simp [hl])]
  | cons hp _ ih =>
    rw [List.countP_cons, ih, pick_countP hp]
    omega

/-- After any trace, `tx_count` is the entry value plus the number of
`fetch_add` events, reduced modulo `2 ^ 64`. -/
theorem runTrace_tx_count (st : PluginState) (t : List Event)
    (hst : st.tx_count < u64Size) :
    (runTrace st t).tx_count =
      (st.tx_count + t.countP (· == Event.fetchAddTx)) % u64Size := by
  induction t generalizing st with
  | nil => simp [runTrace, Nat.mod_eq_of_lt hst]
  | cons e t ih =>
    have hmod : ∀ a : Nat, (a + 1) % u64Size < u64Size :=
      fun a => Nat.mod_lt _ (by unfold u64Size; positivity)
    rw [runTrace, List.foldl_cons, ← runTrace]
    cases e with
    | fetchAddTx =>
      rw [show applyEvent st .fetchAddTx =
        ⟨(st.tx_count + 1) % u64Size, st.match_count, st.last_slot⟩ from rfl,
        ih _ (hmod _)]
      simp only [List.countP_cons, Nat.mod_add_mod]
      simp
      ring_nf
    | storeSlot s =>
      rw [show applyEvent st (.storeSlot s) =
        ⟨st.tx_count, st.match_count, s⟩ from rfl,
        ih ⟨st.tx_count, st.match_count, s⟩ hst]
      simp [List.countP_cons]
    | reportCheck =>
      rw [show applyEvent st .reportCheck = st from rfl, ih st hst]
      simp [List.countP_cons]
    | classified b =>
      rw [show applyEvent st (.classified b) = st from rfl, ih st hst]
      simp [List.countP_cons]
    | fetchAddMatch =>
      rw [show applyEvent st .fetchAddMatch =
        ⟨st.tx_count, (st.match_count + 1) % u64Size, st.last_slot⟩ from rfl,
        ih ⟨st.tx_count, (st.match_count + 1) % u64Size, st.last_slot⟩ hst]
      simp [List.countP_cons]
    | emitLine =>
      rw [show applyEvent st .emitLine = st from rfl, ih st hst]
      simp [List.countP_cons]

/-- After any trace, `match_count` is the entry value plus the number of
`match_count` `fetch_add` events, reduced modulo `2 ^ 64`. -/
theorem runTrace_match_count (st : PluginState) (t : List Event)
    (hst : st.match_count < u64Size) :
    (runTrace st t).match_count =
      (st.match_count + t.countP (· == Event.fetchAddMatch)) % u64Size := by
  induction t generalizing st with
  | nil => simp [runTrace, Nat.mod_eq_of_lt hst]
  | cons e t ih =>
    have hmod : ∀ a : Nat, (a + 1) % u64Size < u64Size :=
      fun a => Nat.mod_lt _ (by unfold u64Size; positivity)
    rw [runTrace, List.foldl_cons, ← runTrace]
    cases e with
    | fetchAddMatch =>
      rw [show applyEvent st .fetchAddMatch =
        ⟨st.tx_count, (st.match_count + 1) % u64Size, st.last_slot⟩ from rfl,
        ih _ (hmod _)]
      simp only [List.countP_cons, Nat.mod_add_mod]
      simp
      ring_nf
    | fetchAddTx =>
      rw [show applyEvent st .fetchAddTx =
        ⟨(st.tx_count + 1) % u64Size, st.match_count, st.last_slot⟩ from rfl,
        ih ⟨(st.tx_count + 1) % u64Size, st.match_count, st.last_slot⟩ hst]
      simp [List.countP_cons]
    | storeSlot s =>
      rw [show applyEvent st (.storeSlot s) =
        ⟨st.tx_count, st.match_count, s⟩ from rfl,
        ih ⟨st.tx_count, st.match_count, s⟩ hst]
      simp [List.countP_cons]
    | reportCheck =>
      rw [show applyEvent st .reportCheck = st from rfl, ih st hst]
      simp [List.countP_cons]
    | classified b =>
      rw [show applyEvent st (.classified b) = st from rfl, ih st hst]
      simp [List.countP_cons]
    | emitLine =>
      rw [show applyEvent st .emitLine = st from rfl, ih st hst]
      simp [List.countP_cons]

/-- Net effect of one event on `match_count - tx_count`, ignoring wrap. -/
def delta : Event → Int
  | .fetchAddMatch => 1
  | .fetchAddTx => -1
  | _ => 0

/-- Largest value of `#fetchAddMatch - #fetchAddTx` over the prefixes of a
pending event sequence: how far `match_count` can run ahead of `tx_count`
using only this sequence's events. -/
def overdraft : List Event → Int
  | [] => 0
  | e :: l => max (delta e + overdraft l) 0

theorem overdraft_nonneg (l : List Event) : 0 ≤ overdraft l := by
  cases l with
  | nil => simp [overdraft]
  | cons e l => simp [overdraft]

theorem overdraft_sum_nonneg (ls : List (List Event)) :
    0 ≤ (ls.map overdraft).sum := by
  apply List.sum_nonneg
  intro x hx
  rcases List.mem_map.mp hx with ⟨l, _, rfl⟩
  exact overdraft_nonneg l

/-- A full call sequence never lets `match_count` get ahead: its
`fetch_add` of `match_count` comes after its `fetch_add` of `tx_count`. -/
theorem overdraft_callTrace (pid : List Nat) (tx : TransactionData) :
    overdraft (callTrace pid tx) = 0 := by
  rw [callTrace_eq]
  cases txMatches pid tx <;> simp [overdraft, delta]

theorem delta_eq_indicators (x : Event) :
    delta x = (if x == Event.fetchAddMatch then (1 : Int) else 0) -
      (if x == Event.fetchAddTx then (1 : Int) else 0) := by
  cases x <;> simp [delta]

theorem pick_overdraft {x : Event} {ls ls' : List (List Event)}
    (hp : Pick x ls ls') :
    (ls'.map overdraft).sum ≤ (ls.map overdraft).sum - delta x := by
  induction hp with
  | @here l ls =>
    simp only [List.map_cons, List.sum_cons]
    have h : delta x + overdraft l ≤ overdraft (x :: l) := le_max_left _ _
    rw [show overdraft (x :: l) = max (delta x + overdraft l) 0 from rfl] at h ⊢
    omega
  | @there l ls ls' _ ih =>
    simp only [List.map_cons, List.sum_cons]
    omega

/-- Interleaving invariant: in every prefix of an interleaved trace, the
number of `match_count` increments is bounded by the number of `tx_count`
increments plus the total overdraft still pending. -/
theorem isInterleaving_prefix_bound {ls : List (List Event)} {t : List Event}
    (hI : IsInterleaving ls t) :
    ∀ p q : List Event, t = p ++ q →
      (p.countP (· == Event.fetchAddMatch) : Int) ≤
        p.countP (· == Event.fetchAddTx) + (ls.map overdraft).sum := by
  induction hI with
  | nil h =>
    intro p q hpq
    rcases List.append_eq_nil.mp hpq.symm with ⟨rfl, rfl⟩
    simpa using overdraft_sum_nonneg _
  | @cons ls ls' x t hp hI' ih =>
    intro p q hpq
    cases p with
    | nil =>
      simp only [List.countP_nil]
      have := overdraft_sum_nonneg ls
      push_cast
      omega
    | cons y p =>
      simp only [List.cons_append, List.cons.injEq] at hpq
      obtain ⟨rfl, ht⟩ := hpq
      have hih := ih p q ht
      have hpo := pick_overdraft hp
      simp only [List.countP_cons]
      cases x <;>
        simp only [delta] at hpo <;>
          simp <;> push_cast at hih ⊢ <;> omega

theorem pick_mem_self {x : α} {ls ls' : List (List α)} (hp : Pick x ls ls') :
    ∃ l ∈ ls, x ∈ l := by
  induction hp with
  | @here l ls =>
    exact ⟨x :: l, List.mem_cons_self _ _, List.mem_cons_self _ _⟩
  | @there l ls ls' _ ih =>
    obtain ⟨l₀, hl₀, hx⟩ := ih
    exact ⟨l₀, List.mem_cons_of_mem _ hl₀, hx⟩

theorem pick_subset {x : α} {ls ls' : List (List α)} (hp : Pick x ls ls') :
    ∀ l' ∈ ls', ∃ l ∈ ls, ∀ y ∈ l', y ∈ l := by
  induction hp with
  | @here l ls =>
    intro l' hl'
    rcases List.mem_cons.mp hl' with rfl | h
    · exact ⟨x :: l', List.mem_cons_self _ _, fun y hy => List.mem_cons_of_mem _ hy⟩
    · exact ⟨l', List.mem_cons_of_mem _ h, fun y hy => hy⟩
  | @there l ls ls' _ ih =>
    intro l' hl'
    rcases List.mem_cons.mp hl' with rfl | h
    · exact ⟨l', List.mem_cons_self _ _, fun y hy => hy⟩
    · obtain ⟨l₀, hl₀, hsub⟩ := ih l' h
      exact ⟨l₀, List.mem_cons_of_mem _ hl₀, hsub⟩

/-- Every event of an interleaved trace comes from one of the interleaved
sequences. -/
theorem isInterleaving_mem {ls : List (List α)} {t : List α}
    (hI : IsInterleaving ls t) : ∀ y ∈ t, ∃ l ∈ ls, y ∈ l := by
  induction hI with
  | nil _ => intro y hy; simp at hy
  | @cons ls ls' x t hp hI' ih =>
    intro y hy
    rcases List.mem_cons.mp hy with rfl | hy'
    · exact pick_mem_self hp
    · obtain ⟨l', hl', hyl'⟩ := ih y hy'
      obtain ⟨l, hl, hsub⟩ := pick_subset hp l' hl'
      exact ⟨l, hl, hsub y hyl'⟩

/-! ### Emission model

`println!` takes the stdout lock for the duration of one call, so each
Emitter call appends its whole line as one indivisible chunk — the same
primitive-level guarantee `AtomicU64::fetch_add` provides for the
counters.  A concurrent run of emitters is an interleaving of one-chunk
sequences; what remains program-dependent, and is proved below, is that
the captured byte stream then splits on the line terminator into exactly
one complete, untruncated rendered record per emit call. -/

theorem sum_map_one (l : List α) : (l.map fun _ => (1 : Nat)).sum = l.length := by
  induction l with
  | nil => rfl
  | cons x xs ih => simp [ih]; omega

/-- Split of a character stream at every newline: the segments between
line terminators, with a final (empty, when the stream ends in a
terminator) trailing segment. -/
def splitNl : List Char → List (List Char)
  | [] => [[]]
  | c :: cs =>
    if c = '\n' then [] :: splitNl cs
    else
      match splitNl cs with
      | [] => [[c]]
      | l :: ls => (c :: l) :: ls

/-- Splitting a newline-terminated segment off the front of a stream. -/
theorem splitNl_line {d : List Char} (hd : '\n' ∉ d) (t : List Char) :
    splitNl (d ++ '\n' :: t) = d :: splitNl t := by
  induction d with
  | nil => simp [splitNl]
  | cons c d ih =>
    have hc : ¬c = '\n' := fun h => hd (h ▸ List.mem_cons_self _ _)
    have hd' : '\n' ∉ d := fun h => hd (List.mem_cons_of_mem _ h)
    rw [List.cons_append, splitNl, if_neg hc, ih hd']

/-- A stream made of newline-terminated rendered records splits into
exactly those records, in write order, plus the empty trailing segment. -/
theorem splitNl_chunks (rs : List OutputRecord) :
    ∀ stream : List String,
      (∀ chunk ∈ stream, ∃ r ∈ rs, chunk = renderOutputRecord r ++ "\n") →
      splitNl ((stream.map String.data).flatten) =
        (stream.map fun chunk => chunk.data.dropLast) ++ [[]] := by
  intro stream
  induction stream with
  | nil => intro _; simp [splitNl]
  | cons chunk rest ih =>
    intro h
    obtain ⟨r, hr, rfl⟩ := h chunk (List.mem_cons_self _ _)
    have hnl : '\n' ∉ (renderOutputRecord r).data := renderOutputRecord_noNewline r
    have hdata : (renderOutputRecord r ++ "\n").data =
        (renderOutputRecord r).data ++ ['\n'] := by
      rw [String.data_append]
    rw [List.map_cons, List.flatten_cons, hdata, List.append_assoc,
      show ['\n'] ++ (rest.map String.data).flatten =
        '\n' :: (rest.map String.data).flatten from rfl,
      splitNl_line hnl, ih fun c hc => h c (List.mem_cons_of_mem _ hc),
      List.map_cons, hdata, List.dropLast_concat, List.cons_append]

/-! ### Concrete example inputs -/

/-- The 32-zero-byte program id (base58 text
`11111111111111111111111111111111`). -/
def exTarget : List Nat := List.replicate 32 0

/-- A non-vote transaction that references `exTarget` and logs its base58
text, so it passes all three filter stages. -/
def exMatchTx : TransactionData :=
  ⟨"sig", 7, none, false, [List.replicate 32 0],
   some ["Program 11111111111111111111111111111111 invoke"]⟩

/-! ### Claims -/

/-- C1: an output line is emitted for a transaction record if and only if
the record passes all three filter stages — it is not a vote record, its
static account keys contain the 32-byte target by exact byte equality, and
its log list (absent treated as empty) is non-empty with some line
containing the base58 text of the target — and then the output is exactly
one line. -/
theorem C1_output_iff_all_stages (pid : List Nat) (st : PluginState)
    (tx : TransactionData) :
    (on_transaction pid st tx).stdout =
      if passesAllStages pid tx
      then [renderOutputRecord (buildRecord tx) ++ "\n"] else [] := by
  rw [on_transaction_stdout]
  by_cases h : passesAllStages pid tx
  · rw [if_pos ((txMatches_iff_passesAllStages pid tx).mpr h), if_pos h]
  · rw [if_neg fun hb => h ((txMatches_iff_passesAllStages pid tx).mp hb),
      if_neg h]

/-- C2 counterexample: on the 100,000th call (entry `tx_count` 99999) the
freshly-updated `processed` value is 100000 — strictly positive and a
multiple of 100,000 — yet no progress line is written, because the code
tests the pre-increment value returned by `fetch_add`; the line appears
one call later, at entry `tx_count` 100000, and reports `processed` as
100000 rather than the updated 100001. -/
theorem C2_counterexample :
    ((99999 + 1) % u64Size = 100000 ∧ 0 < 100000 ∧ 100000 % 100000 = 0) ∧
    (on_transaction exTarget ⟨99999, 5, 0⟩ exMatchTx).stderr = [] ∧
    (on_transaction exTarget ⟨100000, 5, 0⟩ exMatchTx).stderr =
      [progressLine 100000 5 7] := by
  refine ⟨by decide, ?_, ?_⟩ <;> decide

/-- C2 amended: after `processed` is incremented, a progress line is
written exactly when the pre-increment `processed` value (the value the
`fetch_add` returned, one less than the freshly-updated value) is strictly
positive and a multiple of 100,000, and the line reports that pre-increment
value together with the current `matched` and `last_position` snapshot; in
particular the 100,001st call, not the 100,000th, writes the line. -/
theorem C2_progress_on_pre_increment_multiple (pid : List Nat)
    (st : PluginState) (tx : TransactionData) :
    (on_transaction pid st tx).stderr =
      if 0 < st.tx_count ∧ st.tx_count % 100000 = 0
      then [progressLine st.tx_count st.match_count tx.slot] else [] := by
  rw [on_transaction_stderr, reportLines]

/-- C3 counterexample: the 33-character identifier `111…1` decodes to 33
bytes — not the fixed width 32 — yet construction succeeds, silently using
only the first 32 bytes. -/
theorem C3_counterexample :
    bs58decode ⟨List.replicate 33 '1'⟩ = some (List.replicate 33 0) ∧
    (List.replicate 33 (0 : Nat)).length ≠ 32 ∧
    ProgramFilterPlugin.new ⟨List.replicate 33 '1'⟩ =
      some (List.replicate 32 0) := by
  refine ⟨by decide, by decide, by decide⟩

/-- C3 amended: construction is fatal exactly when the identifier fails to
decode or decodes to fewer than 32 bytes; whenever it decodes to 32 or
more bytes, construction succeeds and the filter target is the first 32
bytes of the decoding (any excess is silently truncated). -/
theorem C3_startup_decode (s : String) :
    (ProgramFilterPlugin.new s = none ↔
      bs58decode s = none ∨
      ∃ bytes, bs58decode s = some bytes ∧ bytes.length < 32) ∧
    (∀ bytes, bs58decode s = some bytes → 32 ≤ bytes.length →
      ProgramFilterPlugin.new s = some (bytes.take 32)) := by
  constructor
  · constructor
    · intro h
      unfold ProgramFilterPlugin.new at h
      cases hdec : bs58decode s with
      | none => exact .inl rfl
      | some bytes =>
        rw [hdec] at h
        dsimp only at h
        refine .inr ⟨bytes, rfl, ?_⟩
        by_contra hlen
        rw [if_pos (by omega : 32 ≤ bytes.length)] at h
        exact Option.noConfusion h
    · intro h
      unfold ProgramFilterPlugin.new
      rcases h with h | ⟨bytes, hb, hlen⟩
      · rw [h]
      · rw [hb]
        dsimp only
        rw [if_neg (by omega : ¬32 ≤ bytes.length)]
  · intro bytes hb hlen
    unfold ProgramFilterPlugin.new
    rw [hb]
    dsimp only
    rw [if_pos hlen]

/-- C3 amended, witness: a 40-character `1…1` identifier decodes to 40 zero
bytes, at least 32 of them, so construction succeeds with the first 32. -/
theorem C3_startup_decode_witness :
    ProgramFilterPlugin.new ⟨List.replicate 40 '1'⟩ =
      some ((List.replicate 40 (0 : Nat)).take 32) :=
  (C3_startup_decode ⟨List.replicate 40 '1'⟩).2
    (List.replicate 40 0) (by decide) (by decide)

/-- C4 counterexample: on a concrete matching record the call's event
sequence updates a counter (`tx_count` `fetch_add`, index 0) strictly
before the matcher decision (index 3), so the Matcher decision is not made
before any counter is updated. -/
theorem C4_counterexample :
    callTrace exTarget exMatchTx =
      [.fetchAddTx, .storeSlot 7, .reportCheck, .classified true,
       .fetchAddMatch, .emitLine] ∧
    (callTrace exTarget exMatchTx).findIdx (· == Event.fetchAddTx) <
      (callTrace exTarget exMatchTx).findIdx
        fun e => e == Event.classified true || e == Event.classified false := by
  refine ⟨by decide, by decide⟩

/-- C4 amended: for every record the callback composes its steps in the
order counters update (`record_seen`: `tx_count` `fetch_add` then the slot
store), then the reporter check, then the Matcher classification, and —
only on accept — `record_matched` and the Emitter; the counters update
precedes the Matcher decision. -/
theorem C4_composition_order (pid : List Nat) (tx : TransactionData) :
    callTrace pid tx =
      Event.fetchAddTx :: Event.storeSlot tx.slot :: Event.reportCheck ::
        (if txMatches pid tx
         then [Event.classified true, Event.fetchAddMatch, Event.emitLine]
         else [Event.classified false]) := by
  rw [callTrace_eq]
  rfl

/-- C5: processing one record is all-or-nothing — the call completes
normally, and either `match_count` is unchanged and nothing was written to
stdout, or `match_count` was incremented and exactly one output line was
written; neither side effect ever happens without the other. -/
theorem C5_all_or_nothing (pid : List Nat) (st : PluginState)
    (tx : TransactionData) :
    (on_transaction pid st tx).isOk = true ∧
    (((on_transaction pid st tx).counters.match_count = st.match_count ∧
      (on_transaction pid st tx).stdout = []) ∨
     ((on_transaction pid st tx).counters.match_count =
        (st.match_count + 1) % u64Size ∧
      ∃ line, (on_transaction pid st tx).stdout = [line])) := by
  rw [on_transaction_spec]
  cases h : txMatches pid tx
  · exact ⟨rfl, .inl ⟨rfl, rfl⟩⟩
  · exact ⟨rfl, .inr ⟨rfl, _, rfl⟩⟩

/-- C6: under any number of concurrent Emitter calls — modelled as an
interleaving of one-chunk sequences, each chunk one whole
newline-terminated rendered record, since `println!` holds the stdout
lock for the full call — the captured stream splits on the line
terminator into exactly as many lines as successful emit calls, and each
line is the complete, untruncated serialization of one emitted record:
independently parseable, with no character-level interleaving between
lines from concurrent calls. -/
theorem C6_emission_exclusivity (rs : List OutputRecord)
    (stream : List String)
    (hI : IsInterleaving
      (rs.map fun r => [renderOutputRecord r ++ "\n"]) stream) :
    (splitNl ((stream.map String.data).flatten)).dropLast.length = rs.length ∧
    ∀ seg ∈ (splitNl ((stream.map String.data).flatten)).dropLast,
      ∃ r ∈ rs, seg = (renderOutputRecord r).data := by
  have hchunk : ∀ chunk ∈ stream,
      ∃ r ∈ rs, chunk = renderOutputRecord r ++ "\n" := by
    intro chunk hc
    obtain ⟨l, hl, hcl⟩ := isInterleaving_mem hI chunk hc
    obtain ⟨r, hr, rfl⟩ := List.mem_map.mp hl
    exact ⟨r, hr, List.mem_singleton.mp hcl⟩
  have hsplit := splitNl_chunks rs stream hchunk
  have hlen : stream.length = rs.length := by
    have h1 := isInterleaving_countP hI fun _ => true
    rw [List.countP_true] at h1
    have h2 : ∀ c ∈ rs.map fun r => [renderOutputRecord r ++ "\n"],
        c.length = 1 := by
      intro c hc
      obtain ⟨r, _, rfl⟩ := List.mem_map.mp hc
      rfl
    rw [List.map_congr_left h2, sum_map_one, List.length_map] at h1
    exact h1
  have hdrop : (splitNl ((stream.map String.data).flatten)).dropLast =
      stream.map fun chunk => chunk.data.dropLast := by
    rw [hsplit, List.dropLast_concat]
  constructor
  · rw [hdrop, List.length_map]
    exact hlen
  · intro seg hseg
    rw [hdrop] at hseg
    obtain ⟨chunk, hcs, rfl⟩ := List.mem_map.mp hseg
    obtain ⟨r, hr, rfl⟩ := hchunk chunk hcs
    refine ⟨r, hr, ?_⟩
    rw [show (renderOutputRecord r ++ "\n").data =
      (renderOutputRecord r).data ++ ['\n'] from by rw [String.data_append],
      List.dropLast_concat]

/-- C6 witness: two emit calls whose chunks land in reversed order still
yield a stream of exactly two complete lines. -/
theorem C6_emission_exclusivity_witness :
    (splitNl ((([renderOutputRecord ⟨"b", 2, some 3, ["y"]⟩ ++ "\n",
                 renderOutputRecord ⟨"a", 1, none, ["x"]⟩ ++ "\n"]).map
        String.data).flatten)).dropLast.length = 2 := by
  have hI : IsInterleaving
      (([⟨"a", 1, none, ["x"]⟩, ⟨"b", 2, some 3, ["y"]⟩] :
          List OutputRecord).map fun r => [renderOutputRecord r ++ "\n"])
      [renderOutputRecord ⟨"b", 2, some 3, ["y"]⟩ ++ "\n",
       renderOutputRecord ⟨"a", 1, none, ["x"]⟩ ++ "\n"] :=
    .cons (.there .here) (.cons .here (.nil (by simp)))
  exact (C6_emission_exclusivity
    [⟨"a", 1, none, ["x"]⟩, ⟨"b", 2, some 3, ["y"]⟩] _ hI).1

/-- C7: any interleaving of N concurrent `record_seen` event sequences —
each one atomic `fetch_add` of `processed` plus one slot store — leaves
`processed` at exactly N: no increment is lost. -/
theorem C7_no_lost_updates (calls : List (List Event)) (t : List Event)
    (hcalls : ∀ c ∈ calls, ∃ s, c = recordSeenEvents s)
    (hI : IsInterleaving calls t)
    (hlen : calls.length < u64Size) :
    (runTrace initState t).tx_count = calls.length := by
  have hone : ∀ c ∈ calls, c.countP (· == Event.fetchAddTx) = 1 := by
    intro c hc
    obtain ⟨s, rfl⟩ := hcalls c hc
    simp [recordSeenEvents, List.countP_cons]
  have hcount : t.countP (· == Event.fetchAddTx) = calls.length := by
    rw [isInterleaving_countP hI]
    rw [List.map_congr_left hone]
    simp
  rw [runTrace_tx_count initState t (by unfold u64Size initState; positivity),
    hcount, show initState.tx_count = 0 from rfl, Nat.zero_add]
  exact Nat.mod_eq_of_lt hlen

/-- C7 witness: two concurrent `record_seen` calls, interleaved, leave
`processed` at exactly 2. -/
theorem C7_no_lost_updates_witness :
    (runTrace initState
      [.fetchAddTx, .storeSlot 3, .fetchAddTx, .storeSlot 9]).tx_count = 2 := by
  have hI : IsInterleaving
      [[Event.fetchAddTx, Event.storeSlot 3],
       [Event.fetchAddTx, Event.storeSlot 9]]
      [.fetchAddTx, .storeSlot 3, .fetchAddTx, .storeSlot 9] :=
    .cons .here (.cons .here (.cons (.there .here)
      (.cons (.there .here) (.nil (by simp)))))
  exact C7_no_lost_updates _ _
    (by
      intro c hc
      simp only [List.mem_cons, List.not_mem_nil, or_false] at hc
      rcases hc with rfl | rfl
      · exact ⟨3, rfl⟩
      · exact ⟨9, rfl⟩)
    hI (by decide)

/-- C8: stdout of a run is exactly one line per matched record, in input
order — a compact JSON object with the keys `signature`, `slot`,
`blockTime` (`null` when the timestamp is absent) and `logs` (the record's
log lines, JSON-escaped, in original order), followed by a single newline —
and every emitted line contains exactly one newline character, at its
end. -/
theorem C8_output_lines (pid : List Nat) (txs : List TransactionData) :
    (runAll pid initState txs).2.1 =
      ((txs.filter (txMatches pid)).map fun tx =>
        jsonObj [("signature", jsonString tx.signature),
                 ("slot", natDec tx.slot),
                 ("blockTime", match tx.block_time with
                               | none => "null"
                               | some bt => intDec bt),
                 ("logs", jsonArr ((tx.log_messages.getD []).map jsonString))]
          ++ "\n") ∧
    ∀ line ∈ (runAll pid initState txs).2.1,
      line.data.count '\n' = 1 ∧ ∃ s, line = s ++ "\n" ∧ noNewline s := by
  constructor
  · rw [runAll_stdout]
    rfl
  · intro line hline
    rw [runAll_stdout] at hline
    obtain ⟨tx, _, rfl⟩ := List.mem_map.mp hline
    refine ⟨?_, renderOutputRecord (buildRecord tx), rfl,
      renderOutputRecord_noNewline _⟩
    rw [String.data_append, List.count_append]
    have h0 : (renderOutputRecord (buildRecord tx)).data.count '\n' = 0 :=
      List.count_eq_zero.mpr (renderOutputRecord_noNewline _)
    rw [h0]
    rfl

/-- C9: when the serializer fails on a matched record, the call panics —
an abort of the process — rather than returning normal success; a matched
record is never silently dropped. -/
theorem C9_serialization_failure_fatal
    (ser : OutputRecord → Except Unit String) (pid : List Nat)
    (st : PluginState) (tx : TransactionData) (e : Unit)
    (hmatch : txMatches pid tx = true)
    (hser : ser (buildRecord tx) = .error e) :
    on_transaction_with ser pid st tx =
      .panicked
        ⟨(st.tx_count + 1) % u64Size, (st.match_count + 1) % u64Size, tx.slot⟩
        (reportLines st tx) := by
  rw [on_transaction_with_spec, if_pos hmatch, hser]

/-- C9 witness: an always-failing serializer on a concrete matched record
makes the call panic. -/
theorem C9_serialization_failure_fatal_witness :
    on_transaction_with (fun _ => .error ()) exTarget initState exMatchTx =
      .panicked ⟨1, 1, 7⟩ (reportLines initState exMatchTx) :=
  C9_serialization_failure_fatal (fun _ => .error ()) exTarget initState
    exMatchTx () (by decide) rfl

/-- C10: in every prefix of every interleaving of complete callback event
sequences, the `matched` counter never exceeds the `processed` counter,
because each call's `tx_count` increment precedes its `match_count`
increment. -/
theorem C10_matched_le_processed (pid : List Nat)
    (calls : List (List Event)) (t p q : List Event)
    (hcalls : ∀ c ∈ calls, ∃ tx, c = callTrace pid tx)
    (hI : IsInterleaving calls t)
    (hpq : t = p ++ q)
    (hlt : t.countP (· == Event.fetchAddTx) < u64Size) :
    (runTrace initState p).match_count ≤ (runTrace initState p).tx_count := by
  have hzero : ∀ c ∈ calls, overdraft c = 0 := by
    intro c hc
    obtain ⟨tx, rfl⟩ := hcalls c hc
    exact overdraft_callTrace pid tx
  have hsum : (calls.map overdraft).sum = 0 := by
    rw [List.map_congr_left hzero]
    simp
  have hbound := isInterleaving_prefix_bound hI p q hpq
  rw [hsum] at hbound
  have hmono : p.countP (· == Event.fetchAddTx) ≤
      t.countP (· == Event.fetchAddTx) := by
    rw [hpq, List.countP_append]
    omega
  have hcs : p.countP (· == Event.fetchAddTx) < u64Size := lt_of_le_of_lt hmono hlt
  have hcm : p.countP (· == Event.fetchAddMatch) ≤
      p.countP (· == Event.fetchAddTx) := by exact_mod_cast by omega
  rw [runTrace_match_count initState p (by unfold u64Size initState; positivity),
    runTrace_tx_count initState p (by unfold u64Size initState; positivity)]
  simp only [initState, Nat.zero_add]
  rw [Nat.mod_eq_of_lt (lt_of_le_of_lt hcm hcs), Nat.mod_eq_of_lt hcs]
  exact hcm

/-- C10 witness: over the full event sequence of one concrete matching
call, `matched` ends no greater than `processed`. -/
theorem C10_matched_le_processed_witness :
    (runTrace initState (callTrace exTarget exMatchTx)).match_count ≤
      (runTrace initState (callTrace exTarget exMatchTx)).tx_count :=
  C10_matched_le_processed exTarget [callTrace exTarget exMatchTx]
    (callTrace exTarget exMatchTx) (callTrace exTarget exMatchTx) []
    (by
      intro c hc
      simp only [List.mem_singleton] at hc
      exact ⟨exMatchTx, hc⟩)
    (isInterleaving_single _)
    (List.append_nil _).symm
    (by decide)

end Uho
